import Mathlib

/-!
Verification development for the elora-chat backend (Go).

This file shallowly embeds the core data model and operations of the
repository — the SQLite-backed message store (cursor queries, tail
iteration, idempotent migrations), the chat message enrichment and
drop-empty policy, the broadcast hub backpressure policy, the ingest
supervisor backoff loop, and the tokenizer pattern-segment
classification — and proves or refutes the specified properties about
them.

Go strings are modelled through their character lists; Go slices that
can be nil are modelled as `Option (List _)`; fallible operations
return `Except`.  Machine integers (int64 timestamps, rowids, limits)
are modelled as `Int`, which is faithful here because none of the
embedded code paths rely on overflow.
-/

deriving instance DecidableEq for Except

namespace EloraChat

/-! ### String helpers

Models of the Go `strings` / `unicode` functions used by the embedded
code, implemented over `String.data` (`List Char`) so that every
definition reduces in the kernel. -/

/-- Model of Go `strings.TrimSpace` on a character list: drop leading and
trailing whitespace. -/
def trimCharsL (cs : List Char) : List Char :=
  ((cs.dropWhile Char.isWhitespace).reverse.dropWhile Char.isWhitespace).reverse

/-- Model of Go `strings.TrimSpace`. -/
def strTrim (s : String) : String :=
  String.mk (trimCharsL s.data)

/-- Model of Go `strings.ToLower` (ASCII case folding suffices for the
embedded comparisons). -/
def strToLower (s : String) : String :=
  String.mk (s.data.map Char.toLower)

/-- Model of Go `strings.HasPrefix s pre`. -/
def strStartsWith (s pre : String) : Bool :=
  pre.data.isPrefixOf s.data

/-- Model of Go `strings.HasSuffix s suf`. -/
def strEndsWith (s suf : String) : Bool :=
  suf.data.reverse.isPrefixOf s.data.reverse

/-- Drop the first `n` characters of a string (Go slicing `s[n:]` at a
character boundary). -/
def strDropN (s : String) (n : Nat) : String :=
  String.mk (s.data.drop n)

/-- Character length of a string. -/
def strLen (s : String) : Nat :=
  s.data.length

/-- Whether the character-list `pat` occurs somewhere inside `cs`. -/
def subOccursL (pat : List Char) : List Char → Bool
  | [] => pat.isPrefixOf ([] : List Char)
  | c :: cs => pat.isPrefixOf (c :: cs) || subOccursL pat cs

/-- Model of Go `strings.Contains s pat`. -/
def strContains (s pat : String) : Bool :=
  subOccursL pat.data s.data

/-- Accumulate the leading decimal digits of a character list into an
integer; stops at the first non-digit. -/
def digitsVal : List Char → Int → Int
  | [], acc => acc
  | c :: cs, acc =>
    if c.isDigit then digitsVal cs (acc * 10 + ((c.toNat - '0'.toNat : Nat) : Int)) else acc

/-- Model of SQLite `CAST(id AS INTEGER)` on a text column: skip leading
whitespace, read an optional sign and the longest digit run; anything
else yields 0. -/
def castIdInt (s : String) : Int :=
  let cs := s.data.dropWhile Char.isWhitespace
  match cs with
  | '-' :: rest => - digitsVal rest 0
  | '+' :: rest => digitsVal rest 0
  | _ => digitsVal cs 0

/-- Lexicographic less-or-equal on character lists (SQLite text
collation BINARY, used for the `id DESC` tie break). -/
def charListLeB : List Char → List Char → Bool
  | [], _ => true
  | _ :: _, [] => false
  | a :: l, b :: m => if a = b then charListLeB l m else decide (a < b)

/-- Lexicographic less-or-equal on strings. -/
def strLeB (s t : String) : Bool :=
  charListLeB s.data t.data

/-! ### Storage engine data model

From `src/backend/internal/storage/storage.go` and the `messages`
schema: each row carries a millisecond timestamp `ts` and the
engine-assigned `rowid`.  Timestamps are the `UnixMilli` values the Go
code binds into the SQL; the table state is the list of rows. -/

/-- Mirror of `storage.TailPosition`: the compound tail cursor. -/
structure TailPosition where
  ts : Int
  rowid : Int
deriving DecidableEq

/-- Mirror of `storage.Message` at the SQL row level, extended with the
SQLite `rowid` that the tail queries read. -/
structure MsgRow where
  id : String
  ts : Int
  rowid : Int
  username : String
  platform : String
  text : String
  emotesJson : String
  badgesJson : String
  rawJson : String
deriving DecidableEq

/-- Compound `(timestamp, row-sequence)` key of a row. -/
def rowKey (r : MsgRow) : Int × Int :=
  (r.ts, r.rowid)

/-- Compound key of a cursor position. -/
def posKey (p : TailPosition) : Int × Int :=
  (p.ts, p.rowid)

/-- Strict lexicographic order on compound keys. -/
def keyLt (a b : Int × Int) : Prop :=
  a.1 < b.1 ∨ (a.1 = b.1 ∧ a.2 < b.2)

instance : DecidableRel keyLt := fun a b => by
  unfold keyLt
  infer_instance

/-- Mirror of the `TailNext` WHERE clause
`ts > ? OR (ts = ? AND rowid > ?)` evaluated at row `r` for cursor `p`. -/
def tailAfterB (r : MsgRow) (p : TailPosition) : Bool :=
  decide (r.ts > p.ts) || (decide (r.ts = p.ts) && decide (r.rowid > p.rowid))

/-- Row order `ORDER BY ts ASC, rowid ASC` (non-strict). -/
def tailLe (a b : MsgRow) : Prop :=
  keyLt (rowKey a) (rowKey b) ∨ rowKey a = rowKey b

/-- Row order `ORDER BY ts ASC, rowid ASC` (strict, on distinct keys). -/
def tailLt (a b : MsgRow) : Prop :=
  keyLt (rowKey a) (rowKey b)

/-- Row order `ORDER BY ts DESC, rowid DESC` used by `TailHead`. -/
def tailGe (a b : MsgRow) : Prop :=
  tailLe b a

instance : DecidableRel tailLe := fun a b => by
  unfold tailLe
  infer_instance

instance : DecidableRel tailLt := fun a b => by
  unfold tailLt
  infer_instance

instance : DecidableRel tailGe := fun a b => by
  unfold tailGe
  infer_instance

instance : IsTrans MsgRow tailLe := ⟨by
  intro a b c hab hbc
  simp only [tailLe, keyLt, rowKey, Prod.mk.injEq] at *
  omega⟩

instance : IsTotal MsgRow tailLe := ⟨by
  intro a b
  simp only [tailLe, keyLt, rowKey, Prod.mk.injEq]
  omega⟩

instance : IsAntisymm MsgRow tailLt := ⟨by
  intro a b hab hba
  simp only [tailLt, keyLt, rowKey, Prod.mk.injEq] at *
  omega⟩

instance : IsTrans MsgRow tailGe := ⟨by
  intro a b c hab hbc
  simp only [tailGe, tailLe, keyLt, rowKey, Prod.mk.injEq] at *
  omega⟩

instance : IsTotal MsgRow tailGe := ⟨by
  intro a b
  simp only [tailGe, tailLe, keyLt, rowKey, Prod.mk.injEq]
  omega⟩

/-- Effective limit of `TailNext`: the Go code replaces a non-positive
limit by 500 (`if limit <= 0 { limit = 500 }`). -/
def effectiveTailLimit (limit : Int) : Nat :=
  (if limit ≤ 0 then (500 : Int) else limit).toNat

/-- Row list returned by `TailNext`: the rows matching the strict
compound WHERE clause, in `ts ASC, rowid ASC` order, up to the
effective limit. -/
def tailRows (table : List MsgRow) (after : TailPosition) (limit : Int) : List MsgRow :=
  ((table.filter (fun r => tailAfterB r after)).insertionSort tailLe).take
    (effectiveTailLimit limit)

/-- Mirror of `Store.TailNext`
(`src/backend/internal/storage/sqlite/sqlite.go:369`): a non-positive
limit is replaced by 500, the rows strictly after the cursor are
returned in `ts, rowid` ascending order up to the limit, and the
returned cursor is the key of the last returned row (`last` starts at
`after` and is overwritten by every scanned row). -/
def TailNext (table : List MsgRow) (after : TailPosition) (limit : Int) :
    List MsgRow × TailPosition :=
  (tailRows table after limit,
    (tailRows table after limit).foldl (fun _ r => TailPosition.mk r.ts r.rowid) after)

/-- Mirror of `Store.TailHead`
(`src/backend/internal/storage/sqlite/sqlite.go:343`): the single row
that is maximal in `(ts, rowid)` order, or the zero position when the
table is empty (`sql.ErrNoRows`). -/
def TailHead (table : List MsgRow) : TailPosition :=
  match (table.insertionSort tailGe).head? with
  | none => TailPosition.mk 0 0
  | some r => TailPosition.mk r.ts r.rowid

/-- Mirror of `storage.QueryOpts` with timestamps already in
`UnixMilli` form. -/
structure QueryOpts where
  limit : Int
  sinceTS : Option Int
  beforeTS : Option Int
deriving DecidableEq

/-- The `ts >= ?` clause added when `SinceTS` is set. -/
def sinceOkB (q : QueryOpts) (r : MsgRow) : Bool :=
  match q.sinceTS with
  | some t => decide (t ≤ r.ts)
  | none => true

/-- The `ts < ?` clause added when `BeforeTS` is set. -/
def beforeOkB (q : QueryOpts) (r : MsgRow) : Bool :=
  match q.beforeTS with
  | some t => decide (r.ts < t)
  | none => true

/-- Row order `ORDER BY ts DESC, CAST(id AS INTEGER) DESC, id DESC`
used by `GetRecent`. -/
def recentLe (a b : MsgRow) : Prop :=
  b.ts < a.ts ∨ (b.ts = a.ts ∧
    (castIdInt b.id < castIdInt a.id ∨
      (castIdInt b.id = castIdInt a.id ∧ strLeB b.id a.id = true)))

instance : DecidableRel recentLe := fun a b => by
  unfold recentLe
  infer_instance

/-- Filtered, ordered, limit-applied row list of `GetRecent`; the
`LIMIT` clause is only added when `q.Limit > 0`. -/
def recentRows (table : List MsgRow) (q : QueryOpts) : List MsgRow :=
  let sorted :=
    (table.filter (fun r => sinceOkB q r && beforeOkB q r)).insertionSort recentLe
  if 0 < q.limit then sorted.take q.limit.toNat else sorted

/-- Mirror of `Store.GetRecent`
(`src/backend/internal/storage/sqlite/sqlite.go:284`): supplying both
time filters is an immediate error; otherwise the filtered rows are
returned most-recent-first. -/
def GetRecent (table : List MsgRow) (q : QueryOpts) : Except String (List MsgRow) :=
  if q.sinceTS.isSome && q.beforeTS.isSome then
    Except.error "sqlite: since_ts and before_ts are mutually exclusive"
  else
    Except.ok (recentRows table q)

/-- Repeatedly call `TailNext`, feeding back the returned cursor, until
a call returns no rows (or the fuel runs out); concatenates everything
returned.  This is the polling discipline of the change tailer
(`src/backend/internal/tailer/dbtailer.go`). -/
def tailRun (table : List MsgRow) (limit : Int) : Nat → TailPosition → List MsgRow
  | 0, _ => []
  | Nat.succ fuel, c =>
    let step := TailNext table c limit
    if step.1.isEmpty then [] else step.1 ++ tailRun table limit fuel step.2

/-! ### Migration model

Mirror of `applyMigrationsIdempotent`
(`src/backend/internal/storage/sqlite/sqlite.go:63`).  The SQL
execution itself is abstracted into a parameter `execSql` over an
abstract database state `σ`; its result distinguishes success, the
benign already-exists outcome recognised by `isBenignMigrationError`,
and a fatal error that aborts (and rolls back) the migration
transaction.  The state tracks the `migrations` table (recorded names),
a log of the migration scripts actually submitted for execution, and
the abstract database contents. -/

/-- One entry of the embedded migrations directory (`fs.ReadDir`). -/
structure MigFile where
  name : String
  isDir : Bool
  content : String
deriving DecidableEq

/-- Outcome of executing one migration script against the database. -/
inductive ExecResult (σ : Type)
  | ok (s : σ)
  | benign
  | fatal (msg : String)
deriving DecidableEq

/-- Database state seen by the migration runner. -/
structure MigState (σ : Type) where
  migrations : List String
  execLog : List String
  db : σ
deriving DecidableEq

/-- Whether `applyMigrationsIdempotent` considers the directory entry at
all: not a directory and named `*.sql`. -/
def migEligible (f : MigFile) : Bool :=
  !f.isDir && strEndsWith f.name ".sql"

/-- Mirror of one iteration of the loop in `applyMigrationsIdempotent`:
skip non-`.sql` entries, skip names already recorded in the
`migrations` table, record empty migrations without executing anything,
execute the script otherwise and record it also when the execution
failed benignly. -/
def applyOneMigration {σ : Type} (execSql : String → σ → ExecResult σ)
    (st : MigState σ) (f : MigFile) : Except String (MigState σ) :=
  if !migEligible f then Except.ok st
  else if f.name ∈ st.migrations then Except.ok st
  else
    if strTrim f.content = "" then
      Except.ok { st with migrations := st.migrations ++ [f.name] }
    else
      match execSql (strTrim f.content) st.db with
      | ExecResult.ok db2 =>
        Except.ok { migrations := st.migrations ++ [f.name],
                    execLog := st.execLog ++ [f.name], db := db2 }
      | ExecResult.benign =>
        Except.ok { st with migrations := st.migrations ++ [f.name],
                            execLog := st.execLog ++ [f.name] }
      | ExecResult.fatal e =>
        Except.error ("apply migration " ++ f.name ++ ": " ++ e)

/-- Mirror of `applyMigrationsIdempotent`: fold the per-file step over
the directory listing; the first fatal error aborts (the surrounding
transaction is rolled back, so an error leaves the store unchanged). -/
def applyMigrationsIdempotent {σ : Type} (execSql : String → σ → ExecResult σ) :
    List MigFile → MigState σ → Except String (MigState σ)
  | [], st => Except.ok st
  | f :: fs, st =>
    match applyOneMigration execSql st f with
    | Except.ok st2 => applyMigrationsIdempotent execSql fs st2
    | Except.error e => Except.error e

/-! ### Chat message model

From `src/backend/routes/chat.go`.  Go slices that can be `nil` are
modelled as `Option (List _)` (`none` is the nil slice, which
`encoding/json` serialises as `null`); process-wide configuration read
from the environment (`activeUIConfig`, `ELORA_WS_DROP_EMPTY`) is
passed explicitly. -/

/-- Mirror of the token type tags used by the tokenizer tests. -/
inductive TokenType
  | text
  | colour
  | effect
  | pattern
  | emote
  | command
deriving DecidableEq

/-- Mirror of `routes.Image`. -/
structure Image where
  url : String
  width : Int
  height : Int
  id : String
deriving DecidableEq

/-- Mirror of `routes.Emote`. -/
structure Emote where
  id : String
  name : String
  locations : List String
  images : List Image
deriving DecidableEq

/-- Mirror of `routes.Badge` after decoding. -/
structure Badge where
  id : String
  version : String
deriving DecidableEq

/-- Mirror of `routes.Token`: a type tag, the literal value, and the
resolved emote reference for emote tokens. -/
structure Token where
  type : TokenType
  value : String
  emote : Option Emote
deriving DecidableEq

/-- Mirror of `routes.Message` (the unmarshalled wire shape). -/
structure Message where
  author : String
  message : String
  tokens : Option (List Token)
  emotes : Option (List Emote)
  badges : Option (List Badge)
  source : String
  colour : String
deriving DecidableEq

/-- Mirror of `routes.uiConfig`. -/
structure UIConfig where
  hideYouTubeAt : Bool
  showBadges : Bool
deriving DecidableEq

/-- Default presentation config (`activeUIConfig` initial value). -/
def defaultUIConfig : UIConfig :=
  { hideYouTubeAt := true, showBadges := true }

/-- Mirror of `routes.normalizeSource`. -/
def normalizeSource (src : String) : String :=
  let s := strTrim src
  if strToLower s = "twitch" then "Twitch"
  else if strToLower s = "youtube" then "YouTube"
  else s

/-- Mirror of `Message.normalize` (`src/backend/routes/chat.go:223`). -/
def Message.normalize (cfg : UIConfig) (m : Message) : Message :=
  let author := strTrim m.author
  let message := strTrim m.message
  let source := normalizeSource m.source
  let tokens := some (m.tokens.getD [])
  let emotes := some (m.emotes.getD [])
  let badges := some (m.badges.getD [])
  let author :=
    if cfg.hideYouTubeAt ∧ strToLower source = "youtube" ∧ strStartsWith author "@" = true
    then strTrim (strDropN author 1)
    else author
  let badges := if cfg.showBadges then badges else some ([] : List Badge)
  { author := author, message := message, tokens := tokens, emotes := emotes,
    badges := badges, source := source, colour := m.colour }

/-- Mirror of `ws.ChatPayload` before JSON encoding; the three
collection fields are still nilable slices at this level. -/
structure ChatPayload where
  author : String
  message : String
  fragments : Option (List Token)
  emotes : Option (List Emote)
  badges : Option (List Badge)
  source : String
  colour : String
deriving DecidableEq

/-- Mirror of `Message.toChatPayload` (`src/backend/routes/chat.go:253`):
normalize, then build the payload with `make`-allocated (hence never
nil) fragment, emote and badge slices. -/
def Message.toChatPayload (cfg : UIConfig) (m : Message) : ChatPayload :=
  let n := Message.normalize cfg m
  { author := n.author, message := n.message,
    fragments := some (n.tokens.getD []),
    emotes := some (n.emotes.getD []),
    badges := some (n.badges.getD []),
    source := n.source, colour := n.colour }

/-- Minimal JSON value model: only the distinctions the serialised-form
invariant needs (null vs array vs scalar). -/
inductive Jval
  | null
  | str (s : String)
  | num (n : Int)
  | arr (xs : List Jval)

/-- Whether a JSON value is an array. -/
def Jval.isArr : Jval → Bool
  | Jval.arr _ => true
  | _ => false

/-- Go `encoding/json` on a nilable slice: nil serialises as `null`,
any non-nil slice (empty included) as an array. -/
def marshalNilableList {α : Type} (o : Option (List α)) (f : α → Jval) : Jval :=
  match o with
  | none => Jval.null
  | some xs => Jval.arr (xs.map f)

/-- Token serialisation, modelled only to the depth the invariant
needs. -/
def marshalToken (t : Token) : Jval :=
  Jval.str t.value

/-- Emote serialisation, modelled only to the depth the invariant
needs. -/
def marshalEmote (e : Emote) : Jval :=
  Jval.str e.name

/-- Badge serialisation, modelled only to the depth the invariant
needs. -/
def marshalBadge (b : Badge) : Jval :=
  Jval.str b.id

/-- Serialised form of `ws.ChatPayload` (field values only). -/
structure ChatPayloadJson where
  author : Jval
  message : Jval
  fragments : Jval
  emotes : Jval
  badges : Jval
  source : Jval
  colour : Jval

/-- JSON encoding of a `ws.ChatPayload`. -/
def marshalChatPayload (p : ChatPayload) : ChatPayloadJson :=
  { author := Jval.str p.author, message := Jval.str p.message,
    fragments := marshalNilableList p.fragments marshalToken,
    emotes := marshalNilableList p.emotes marshalEmote,
    badges := marshalNilableList p.badges marshalBadge,
    source := Jval.str p.source, colour := Jval.str p.colour }

/-- Result of `sanitizeMessagePayload`: either the drop signal
(`errDropMessage`) or the re-encoded payload. -/
inductive SanitizeResult
  | drop
  | payload (p : ChatPayload)
deriving DecidableEq

/-- The drop test `wsDropEmptyEnabled() && (msg.Source == "" || msg.Message == "")`
shared by `sanitizeMessagePayload`, `processChatOutput` and
`BroadcastFromTailer`, evaluated on an already-normalized message. -/
def dropEmptyCond (dropEmpty : Bool) (n : Message) : Bool :=
  dropEmpty && (decide (n.source = "") || decide (n.message = ""))

/-- Mirror of `sanitizeMessagePayload` (`src/backend/routes/chat.go:435`)
after JSON decoding: normalize, signal a drop when the drop-empty
toggle is on and the source or the message text is empty, otherwise
re-encode via `toChatPayload`. -/
def sanitizeMessagePayload (cfg : UIConfig) (dropEmpty : Bool) (msg : Message) :
    SanitizeResult :=
  if dropEmptyCond dropEmpty (Message.normalize cfg msg) then
    SanitizeResult.drop
  else
    SanitizeResult.payload (Message.toChatPayload cfg (Message.normalize cfg msg))

/-- Linear-scan lookup in the `userColorMap` association list. -/
def lookupColour : List (String × String) → String → Option String
  | [], _ => none
  | (k, v) :: rest, a => if k = a then some v else lookupColour rest a

/-- Mirror of the enrichment steps of `processChatOutput`
(`src/backend/routes/chat.go:592`) on one decoded message: the source
override from the fetch URL, tokenization, command routing, the colour
preference lookup, the nil-slice fixes and the final `normalize`.  The
tokenizer and the command parser are passed as functions: the tokenizer
implementation is not among the provided sources, and the claims here
do not depend on it. -/
def enrichChatMessage (cfg : UIConfig) (tokenize : String → List Token)
    (parseCmd : Message → Message) (userColours : List (String × String))
    (url : String) (msg0 : Message) : Message :=
  let src :=
    if strContains url "twitch.tv" then "Twitch"
    else if strContains url "youtube.com" then "YouTube"
    else msg0.source
  let m1 := { msg0 with source := normalizeSource src }
  let toks := tokenize m1.message
  let m2 := { m1 with tokens := some toks }
  let m3 :=
    match toks with
    | t :: _ => if t.type = TokenType.command then parseCmd m2 else m2
    | [] => m2
  let m4 :=
    match lookupColour userColours m3.author with
    | some c => { m3 with colour := c }
    | none => m3
  let m5 := { m4 with emotes := some (m4.emotes.getD []),
                      badges := some (m4.badges.getD []) }
  Message.normalize cfg m5

/-- Mirror of the storage/broadcast decision of `processChatOutput`: a
dropped message produces nothing (`continue` before both the
`InsertMessage` call and the `broadcastChatMessage` call); an accepted
message produces the enriched message that feeds the stored row and the
payload that is broadcast. -/
def processChatMessage (cfg : UIConfig) (dropEmpty : Bool)
    (tokenize : String → List Token) (parseCmd : Message → Message)
    (userColours : List (String × String)) (url : String) (msg0 : Message) :
    Option (Message × ChatPayload) :=
  if dropEmptyCond dropEmpty (enrichChatMessage cfg tokenize parseCmd userColours url msg0) then
    none
  else
    some (enrichChatMessage cfg tokenize parseCmd userColours url msg0,
      Message.toChatPayload cfg (enrichChatMessage cfg tokenize parseCmd userColours url msg0))

/-! ### Broadcast hub model

Mirror of `broadcastChatMessage` (`src/backend/routes/chat.go:682`):
the subscriber set is snapshotted under the mutex, then each channel
gets a non-blocking send (`select` with a `default` branch) of its own
copy of the payload.  A subscriber queue is a bounded buffer; the
buffered channel created by `addSubscriber` has capacity 64. -/

/-- Capacity of the buffered channel created by `addSubscriber`. -/
def subscriberQueueCap : Nat := 64

/-- Non-blocking send into one bounded subscriber queue: append when
there is free capacity, silently drop otherwise. -/
def trySend {α : Type} (cap : Nat) (q : List α) (msg : α) : List α :=
  if q.length < cap then q ++ [msg] else q

/-- Mirror of `broadcastChatMessage`: deliver the payload to every
registered queue with a non-blocking send each. -/
def broadcastChatMessage {α : Type} (cap : Nat) (subs : List (List α)) (msg : α) :
    List (List α) :=
  subs.map (fun q => trySend cap q msg)

/-- Publish a whole sequence of payloads in order. -/
def publishAll {α : Type} (cap : Nat) (subs : List (List α)) (msgs : List α) :
    List (List α) :=
  msgs.foldl (fun acc m => broadcastChatMessage cap acc m) subs

/-! ### Ingest supervisor backoff model

Mirror of `GnastyProcess.run` and `nextBackoff`
(`src/backend/internal/ingest/gnasty_process.go`).  Durations are in
milliseconds (`ingest.FromEnv` defaults: base 1000, cap 30000). -/

/-- Mirror of `nextBackoff`. -/
def nextBackoff (cur base max : Int) : Int :=
  if cur < base then base
  else if cur * 2 > max then max
  else cur * 2

/-- Backoff-relevant part of `GnastyConfig`. -/
structure GnastyConfig where
  backoffBase : Int
  backoffMax : Int
deriving DecidableEq

/-- Mirror of the config normalisation in `NewGnasty`: non-positive
base and cap fall back to 1 s and 30 s, and the cap is raised to the
base when the base exceeds it. -/
def normalizeGnastyConfig (c : GnastyConfig) : GnastyConfig :=
  let base := if c.backoffBase ≤ 0 then 1000 else c.backoffBase
  let mx := if c.backoffMax ≤ 0 then 30000 else c.backoffMax
  let mx := if base > mx then base else mx
  { backoffBase := base, backoffMax := mx }

/-- Outcome of one iteration of the `run` loop for one source: a pipe
setup error, a `cmd.Start` error, or a successful start whose process
then exited. -/
inductive RunEvent
  | pipeFail
  | startFail
  | ranThenExit
deriving DecidableEq

/-- One iteration of the `run` loop: the delay slept before the next
start attempt and the backoff value carried into it.  After a
successful `cmd.Start` the loop executes `backoff = base`, so the
post-exit sleep uses the base delay; every sleep is followed by
`backoff = nextBackoff(backoff, base, max)`. -/
def runStep (base max backoff : Int) (e : RunEvent) : Int × Int :=
  match e with
  | RunEvent.ranThenExit => (base, nextBackoff base base max)
  | _ => (backoff, nextBackoff backoff base max)

/-- Restart delays produced by a trace of loop iterations, starting
from backoff state `b` (`run` initialises it to the base). -/
def runDelays (base max : Int) : Int → List RunEvent → List Int
  | _, [] => []
  | b, e :: es =>
    let s := runStep base max b e
    s.1 :: runDelays base max s.2 es

/-- Restart delays of the legacy `monitorAndRestartChatFetch` driver
(`src/backend/routes/chat.go:558`): a constant one-second sleep per
restart, no backoff at all. -/
def chatDownloaderRestartDelays (n : Nat) : List Int :=
  List.replicate n 1000

/-- Consecutive-pair checker used to state trajectory properties of
delay sequences. -/
def consecOkB (f : Int → Int → Bool) : List Int → Bool
  | [] => true
  | [_] => true
  | a :: b :: rest => f a b && consecOkB f (b :: rest)

/-! ### Tokenizer pattern-segment model -/

/-- Join words with single spaces. -/
def joinSpace : List (List Char) → List Char
  | [] => []
  | [w] => w
  | w :: ws => w ++ ' ' :: joinSpace ws

/-- Split a character list into maximal whitespace-free words. -/
def wordsAux : List Char → List Char → List (List Char)
  | [], acc => if acc.isEmpty then [] else [acc.reverse]
  | c :: cs, acc =>
    if c.isWhitespace then
      if acc.isEmpty then wordsAux cs [] else acc.reverse :: wordsAux cs []
    else wordsAux cs (c :: acc)

/-- Collapse runs of whitespace to single spaces and trim the ends, as
the tokenizer does inside Text tokens. -/
def collapseWS (s : String) : String :=
  String.mk (joinSpace (wordsAux s.data []))

/-- Text tokens produced for a run of plain text: one Text token with
collapsed whitespace, or nothing when only whitespace remains. -/
def textTokens (s : String) : List Token :=
  let t := collapseWS s
  if t = "" then [] else [{ type := TokenType.text, value := t, emote := none }]

/-- Modelled from the spec: the tokenizer implementation (the routes
package file defining `Tokenizer` and `Tokenizer.Iter`) is not among
the provided sources; only its `TestTokenizer` vectors are.  This
models the classification of a segment beginning with the literal
`pattern`, followed by a colon and the trailing text `rest`, calibrated
against the cited test vectors: a full complement of 4 two-character
slates (8 trailing characters, as in `patternq3q3q3q3`) makes a Pattern
token; an empty suffix makes the pattern construct consume itself (only
the following text remains, and zero tokens when there is none, as in
`patternNoOps`/`patternEmpty`); any other suffix length degrades the
whole construct to literal text (as in `patternOverMax` with 9 trailing
characters). -/
def patternTokens (seg rest : String) : List Token :=
  let suffix := strDropN seg 7
  if strLen suffix = 8 then
    { type := TokenType.pattern, value := suffix, emote := none } :: textTokens rest
  else if strLen suffix = 0 then
    textTokens rest
  else
    textTokens (seg ++ ":" ++ rest)

/-- Treatment of the whole construct as literal text, as the claim
words it for every non-4 suffix length. -/
def literalSegmentTokens (seg rest : String) : List Token :=
  textTokens (seg ++ ":" ++ rest)

/-! ### Sample data for concrete instantiations -/

/-- Sample row 1: timestamp 10, rowid 1. -/
def wr1 : MsgRow where
  id := "1"
  ts := 10
  rowid := 1
  username := "alice"
  platform := "Twitch"
  text := "hello"
  emotesJson := "[]"
  badgesJson := "[]"
  rawJson := ""

/-- Sample row 2: shares timestamp 10 with row 1, rowid 2. -/
def wr2 : MsgRow where
  id := "2"
  ts := 10
  rowid := 2
  username := "bob"
  platform := "YouTube"
  text := "hi"
  emotesJson := "[]"
  badgesJson := "[]"
  rawJson := ""

/-- Sample row 3: timestamp 11, rowid 3. -/
def wr3 : MsgRow where
  id := "3"
  ts := 11
  rowid := 3
  username := "carol"
  platform := "Twitch"
  text := "yo"
  emotesJson := "[]"
  badgesJson := "[]"
  rawJson := ""

/-- Sample emote. -/
def wEmote : Emote where
  id := "3"
  name := "KEKW"
  locations := []
  images := []

/-- Sample message with empty text but a non-empty emote list. -/
def wEmoteOnlyMsg : Message where
  author := "alice"
  message := ""
  tokens := none
  emotes := some [wEmote]
  badges := none
  source := "Twitch"
  colour := ""

/-- Sample message with no content at all (the drop-empty scenario
payload). -/
def wEmptyMsg : Message where
  author := ""
  message := ""
  tokens := none
  emotes := none
  badges := none
  source := ""
  colour := ""

/-- Sample migration file with non-empty SQL. -/
def wMig1 : MigFile where
  name := "0001_init.sql"
  isDir := false
  content := "CREATE TABLE messages"

/-- Sample migration file whose SQL is blank. -/
def wMig2 : MigFile where
  name := "0002_idx.sql"
  isDir := false
  content := "  "

/-- Sample migration executor over a counter database state. -/
def wExec : String → Nat → ExecResult Nat :=
  fun _ n => ExecResult.ok (n + 1)

/-- Sample message with non-empty text but an empty source label. -/
def wNoSourceMsg : Message where
  author := "bob"
  message := "hi"
  tokens := none
  emotes := none
  badges := none
  source := ""
  colour := ""

/-! ## Theorems -/

/-! ### C6 — mutually exclusive since/before filters -/

/-- C6: for every call to GetRecent that supplies both a
since-timestamp filter and a before-timestamp filter, the store returns
an explicit error to the caller and no rows; the two filters are never
silently combined or resolved. -/
theorem getRecent_both_filters_error (table : List MsgRow) (lim sinceMs beforeMs : Int) :
    GetRecent table { limit := lim, sinceTS := some sinceMs, beforeTS := some beforeMs } =
      Except.error "sqlite: since_ts and before_ts are mutually exclusive" := by
  unfold GetRecent
  simp

/-! ### C7 — negative limits are not rejected -/

/-- Helper: the effective TailNext limit of any non-positive requested
limit is the default 500. -/
theorem effectiveTailLimit_nonpos {lim : Int} (h : lim ≤ 0) :
    effectiveTailLimit lim = 500 := by
  unfold effectiveTailLimit
  rw [if_pos h]
  rfl

/-- C7 counterexample: a negative limit is not rejected anywhere: on a
one-row store, GetRecent with limit -1 succeeds and returns the row
(the LIMIT clause is simply omitted), and TailNext with limit -1
likewise returns the row, behaving exactly as the default limit 500. -/
theorem negative_limit_counterexample :
    GetRecent [wr1] { limit := -1, sinceTS := none, beforeTS := none } = Except.ok [wr1]
    ∧ (TailNext [wr1] ⟨0, 0⟩ (-1)).1 = [wr1]
    ∧ effectiveTailLimit (-1) = 500
    ∧ TailNext [wr1] ⟨0, 0⟩ (-1) = TailNext [wr1] ⟨0, 0⟩ 500 := by
  decide

/-- C7 amended: a store query with a non-positive limit is not rejected
and no error is surfaced: TailNext silently replaces the limit with the
default 500, and GetRecent silently omits the LIMIT clause, returning
all matching rows (still erroring only for the both-filters case). -/
theorem negative_limit_amended (table : List MsgRow) (c : TailPosition)
    (lim lim2 : Int) (q : QueryOpts) (hlim : lim ≤ 0) (hlim2 : lim2 ≤ 0)
    (hq : q.limit ≤ 0) :
    TailNext table c lim = TailNext table c 500
    ∧ TailNext table c lim = TailNext table c lim2
    ∧ recentRows table q =
        (table.filter (fun r => sinceOkB q r && beforeOkB q r)).insertionSort recentLe
    ∧ ((q.sinceTS.isSome && q.beforeTS.isSome) = false →
        GetRecent table q = Except.ok (recentRows table q)) := by
  have h500 : effectiveTailLimit lim = effectiveTailLimit 500 := by
    rw [effectiveTailLimit_nonpos hlim]
    rfl
  have h2 : effectiveTailLimit lim = effectiveTailLimit lim2 := by
    rw [effectiveTailLimit_nonpos hlim, effectiveTailLimit_nonpos hlim2]
  refine ⟨?_, ?_, ?_, ?_⟩
  · unfold TailNext tailRows
    rw [h500]
  · unfold TailNext tailRows
    rw [h2]
  · unfold recentRows
    rw [if_neg (by omega)]
  · intro hboth
    unfold GetRecent
    rw [hboth]
    rfl

/-- C7 amended witness: the amended statement instantiated on a
one-row store with limits -1 and -7. -/
theorem negative_limit_amended_witness :
    TailNext [wr1] ⟨0, 0⟩ (-1) = TailNext [wr1] ⟨0, 0⟩ 500
    ∧ TailNext [wr1] ⟨0, 0⟩ (-1) = TailNext [wr1] ⟨0, 0⟩ (-7)
    ∧ recentRows [wr1] ⟨-1, some 3, none⟩ =
        (([wr1] : List MsgRow).filter
          (fun r => sinceOkB ⟨-1, some 3, none⟩ r && beforeOkB ⟨-1, some 3, none⟩ r)).insertionSort
          recentLe
    ∧ (((⟨-1, some 3, none⟩ : QueryOpts).sinceTS.isSome &&
          (⟨-1, some 3, none⟩ : QueryOpts).beforeTS.isSome) = false →
        GetRecent [wr1] ⟨-1, some 3, none⟩ = Except.ok (recentRows [wr1] ⟨-1, some 3, none⟩)) :=
  negative_limit_amended [wr1] ⟨0, 0⟩ (-1) (-7) ⟨-1, some 3, none⟩
    (by decide) (by decide) (by decide)

/-! ### C3 — ingest restart backoff -/

/-- Helper: a successful start resets the backoff, so every
immediate-exit iteration sleeps exactly the base delay. -/
theorem runDelays_ranThenExit (base mx : Int) :
    ∀ (n : Nat) (b : Int),
      runDelays base mx b (List.replicate n RunEvent.ranThenExit) = List.replicate n base := by
  intro n
  induction n with
  | zero => intro b; rfl
  | succ n ih =>
    intro b
    rw [List.replicate_succ, List.replicate_succ]
    simp only [runDelays, runStep]
    rw [ih]

/-- Helper: across consecutive failed start attempts the slept delay
follows a strictly increasing trajectory until it reaches the cap and
then stays at the cap. -/
theorem runDelays_startFail_chain (base mx : Int) (h1 : 1 ≤ base) :
    ∀ (n : Nat) (b : Int), base ≤ b → b ≤ mx →
      List.Chain' (fun a c => (a < c ∧ c ≤ mx) ∨ (a = mx ∧ c = mx))
        (runDelays base mx b (List.replicate n RunEvent.startFail)) := by
  intro n
  induction n with
  | zero => intro b _ _; simp [runDelays]
  | succ n ih =>
    intro b hb hbm
    rw [List.replicate_succ]
    simp only [runDelays, runStep]
    have hlow : base ≤ nextBackoff b base mx := by
      unfold nextBackoff
      split_ifs <;> omega
    have hhigh : nextBackoff b base mx ≤ mx := by
      unfold nextBackoff
      split_ifs <;> omega
    rw [List.chain'_cons']
    refine ⟨?_, ih (nextBackoff b base mx) hlow hhigh⟩
    intro y hy
    cases n with
    | zero => simp [runDelays] at hy
    | succ m =>
      rw [List.replicate_succ] at hy
      simp only [runDelays, runStep, List.head?_cons, Option.mem_def, Option.some.injEq] at hy
      subst hy
      unfold nextBackoff
      split_ifs <;> omega

/-- C3 counterexample: with the default configured base 1000 ms and cap
30000 ms, a subprocess that starts successfully and exits immediately 3
times in a row produces the constant delay sequence
[1000, 1000, 1000] — the delays do not strictly increase, because
`run` resets the backoff to the base right after every successful
`cmd.Start`, and an immediately-exiting process still started
successfully. -/
theorem backoff_counterexample :
    normalizeGnastyConfig ⟨1000, 30000⟩ = ⟨1000, 30000⟩
    ∧ runDelays 1000 30000 1000
        [RunEvent.ranThenExit, RunEvent.ranThenExit, RunEvent.ranThenExit] =
        [1000, 1000, 1000]
    ∧ consecOkB (fun a c => decide (a < c))
        (runDelays 1000 30000 1000
          [RunEvent.ranThenExit, RunEvent.ranThenExit, RunEvent.ranThenExit]) = false := by
  decide

/-- C3 amended: the restart delay for a source doubles from the
configured base up to the configured cap only across consecutive
failed start attempts (pipe or exec errors), and is reset to the base
after any successful start; consequently a subprocess that starts
successfully and exits immediately n times in a row produces the
constant delay sequence of n base delays, while n consecutive failed
starts produce delays that strictly increase up to the cap and then
stay capped.  The legacy chat-downloader driver
(`monitorAndRestartChatFetch`) instead always sleeps a constant one
second. -/
theorem backoff_amended (base mx : Int) (n : Nat) (h1 : 1 ≤ base) (hbm : base ≤ mx) :
    (∀ b, (runStep base mx b RunEvent.ranThenExit).1 = base)
    ∧ (∀ b, runDelays base mx b (List.replicate n RunEvent.ranThenExit) =
        List.replicate n base)
    ∧ List.Chain' (fun a c => (a < c ∧ c ≤ mx) ∨ (a = mx ∧ c = mx))
        (runDelays base mx base (List.replicate n RunEvent.startFail))
    ∧ chatDownloaderRestartDelays n = List.replicate n 1000 := by
  refine ⟨fun b => rfl, fun b => runDelays_ranThenExit base mx n b, ?_, rfl⟩
  exact runDelays_startFail_chain base mx h1 n base le_rfl hbm

/-- C3 amended witness: the amended statement instantiated at the
default base 1000 ms and cap 30000 ms with 3 iterations. -/
theorem backoff_amended_witness :
    (∀ b, (runStep 1000 30000 b RunEvent.ranThenExit).1 = 1000)
    ∧ (∀ b, runDelays 1000 30000 b (List.replicate 3 RunEvent.ranThenExit) =
        List.replicate 3 1000)
    ∧ List.Chain' (fun a c => (a < c ∧ c ≤ 30000) ∨ (a = 30000 ∧ c = 30000))
        (runDelays 1000 30000 1000 (List.replicate 3 RunEvent.startFail))
    ∧ chatDownloaderRestartDelays 3 = List.replicate 3 1000 :=
  backoff_amended 1000 30000 3 (by decide) (by decide)

/-! ### C8 — pattern segment classification -/

/-- C8 counterexample: the repository test vectors pin a suffix of 8
characters (`patternq3q3q3q3`, four two-character slates) — not 4 — as
the one that yields a Pattern token, and neither the 8-character suffix
nor the empty suffix followed by text is treated as whole-segment
literal text. -/
theorem pattern_tokens_counterexample :
    patternTokens "patternq3q3q3q3" "I am a bumblebee!!!" =
      { type := TokenType.pattern, value := "q3q3q3q3", emote := none } ::
        textTokens "I am a bumblebee!!!"
    ∧ strLen (strDropN "patternq3q3q3q3" 7) = 8
    ∧ patternTokens "patternq3q3q3q3" "I am a bumblebee!!!" ≠
        literalSegmentTokens "patternq3q3q3q3" "I am a bumblebee!!!"
    ∧ patternTokens "pattern" "I am a bumblebee!!!" ≠
        literalSegmentTokens "pattern" "I am a bumblebee!!!"
    ∧ patternTokens "pattern" "I am a bumblebee!!!" =
        [{ type := TokenType.text, value := "I am a bumblebee!!!", emote := none }]
    ∧ patternTokens "pattern" "" = []
    ∧ patternTokens "patternq3q3q3q3q" "I am a bumblebee!!!" =
        literalSegmentTokens "patternq3q3q3q3q" "I am a bumblebee!!!" := by
  decide

/-- C8 amended: for a tokenized segment beginning with the literal
`pattern`, a Pattern token is emitted exactly when 8 characters (four
two-character slates) follow the prefix before the colon; an empty
suffix makes the pattern construct consume itself, leaving only the
following text (and zero tokens when no text follows); every other
suffix length degrades the whole construct to literal text. -/
theorem pattern_tokens_amended (seg rest : String)
    (hseg : strStartsWith seg "pattern" = true) :
    (strLen (strDropN seg 7) = 8 →
      patternTokens seg rest =
        { type := TokenType.pattern, value := strDropN seg 7, emote := none } ::
          textTokens rest)
    ∧ (strLen (strDropN seg 7) = 0 → patternTokens seg rest = textTokens rest)
    ∧ (strLen (strDropN seg 7) = 0 → collapseWS rest = "" → patternTokens seg rest = [])
    ∧ (strLen (strDropN seg 7) ≠ 8 → strLen (strDropN seg 7) ≠ 0 →
        patternTokens seg rest = literalSegmentTokens seg rest) := by
  refine ⟨?_, ?_, ?_, ?_⟩
  · intro h8
    unfold patternTokens
    rw [if_pos h8]
  · intro h0
    unfold patternTokens
    rw [if_neg (by omega), if_pos h0]
  · intro h0 hws
    unfold patternTokens textTokens
    rw [if_neg (by omega), if_pos h0]
    simp only [hws]
    rfl
  · intro h8 h0
    unfold patternTokens literalSegmentTokens
    rw [if_neg h8, if_neg h0]

/-- C8 amended witness: the amended statement instantiated on the
test-vector segments. -/
theorem pattern_tokens_amended_witness :
    strStartsWith "patternq3q3q3q3" "pattern" = true
    ∧ ((strLen (strDropN "patternq3q3q3q3" 7) = 8 →
        patternTokens "patternq3q3q3q3" "I am a bumblebee!!!" =
          { type := TokenType.pattern, value := strDropN "patternq3q3q3q3" 7,
            emote := none } :: textTokens "I am a bumblebee!!!")
      ∧ (strLen (strDropN "patternq3q3q3q3" 7) = 0 →
          patternTokens "patternq3q3q3q3" "I am a bumblebee!!!" =
            textTokens "I am a bumblebee!!!")
      ∧ (strLen (strDropN "patternq3q3q3q3" 7) = 0 →
          collapseWS "I am a bumblebee!!!" = "" →
          patternTokens "patternq3q3q3q3" "I am a bumblebee!!!" = [])
      ∧ (strLen (strDropN "patternq3q3q3q3" 7) ≠ 8 →
          strLen (strDropN "patternq3q3q3q3" 7) ≠ 0 →
          patternTokens "patternq3q3q3q3" "I am a bumblebee!!!" =
            literalSegmentTokens "patternq3q3q3q3" "I am a bumblebee!!!")) :=
  ⟨by decide, pattern_tokens_amended "patternq3q3q3q3" "I am a bumblebee!!!" (by decide)⟩

/-! ### C9 — serialized collection fields are never null -/

/-- Helper: every payload built by `toChatPayload` serialises its
fragment, emote and badge collections as arrays, never as null,
because the payload fields are `make`-allocated non-nil slices. -/
theorem marshal_toChatPayload_arr (cfg : UIConfig) (m : Message) :
    (marshalChatPayload (Message.toChatPayload cfg m)).fragments.isArr = true
    ∧ (marshalChatPayload (Message.toChatPayload cfg m)).emotes.isArr = true
    ∧ (marshalChatPayload (Message.toChatPayload cfg m)).badges.isArr = true :=
  ⟨rfl, rfl, rfl⟩

/-- C9: every serialized chat message payload produced for delivery —
by the ingest pipeline (`processChatOutput`), by history replay and
live fanout (`sanitizeMessagePayload`), and in general by any
`toChatPayload` conversion, which also covers the tailer rebroadcast
path (`BroadcastFromTailer` marshals `msg.toChatPayload()`) — carries
its fragment, emote and badge collections as lists, never null. -/
theorem payload_lists_non_null (cfg : UIConfig) (dropEmpty : Bool) (m : Message) :
    ((marshalChatPayload (Message.toChatPayload cfg m)).fragments.isArr = true
      ∧ (marshalChatPayload (Message.toChatPayload cfg m)).emotes.isArr = true
      ∧ (marshalChatPayload (Message.toChatPayload cfg m)).badges.isArr = true)
    ∧ (∀ (tokenize : String → List Token) (parseCmd : Message → Message)
        (userColours : List (String × String)) (url : String) (msg0 n : Message)
        (p : ChatPayload),
        processChatMessage cfg dropEmpty tokenize parseCmd userColours url msg0 =
          some (n, p) →
        ((marshalChatPayload p).fragments.isArr = true
          ∧ (marshalChatPayload p).emotes.isArr = true
          ∧ (marshalChatPayload p).badges.isArr = true))
    ∧ (∀ (msg : Message) (p : ChatPayload),
        sanitizeMessagePayload cfg dropEmpty msg = SanitizeResult.payload p →
        ((marshalChatPayload p).fragments.isArr = true
          ∧ (marshalChatPayload p).emotes.isArr = true
          ∧ (marshalChatPayload p).badges.isArr = true)) := by
  refine ⟨marshal_toChatPayload_arr cfg m, ?_, ?_⟩
  · intro tokenize parseCmd userColours url msg0 n p h
    unfold processChatMessage at h
    split at h
    · exact absurd h (by simp)
    · rw [Option.some.injEq, Prod.mk.injEq] at h
      rcases h with ⟨_, h2⟩
      subst h2
      exact marshal_toChatPayload_arr cfg _
  · intro msg p h
    unfold sanitizeMessagePayload at h
    split at h
    · exact absurd h (by simp)
    · rw [SanitizeResult.payload.injEq] at h
      subst h
      exact marshal_toChatPayload_arr cfg _

/-- C9 witness: the serialisation invariant instantiated on the payload
actually produced by sanitising a concrete message. -/
theorem payload_lists_non_null_witness :
    (marshalChatPayload (Message.toChatPayload defaultUIConfig
        (Message.normalize defaultUIConfig wNoSourceMsg))).fragments.isArr = true
    ∧ (marshalChatPayload (Message.toChatPayload defaultUIConfig
        (Message.normalize defaultUIConfig wNoSourceMsg))).emotes.isArr = true
    ∧ (marshalChatPayload (Message.toChatPayload defaultUIConfig
        (Message.normalize defaultUIConfig wNoSourceMsg))).badges.isArr = true :=
  (payload_lists_non_null defaultUIConfig false wNoSourceMsg).2.2 wNoSourceMsg
    (Message.toChatPayload defaultUIConfig (Message.normalize defaultUIConfig wNoSourceMsg))
    rfl

/-! ### C2 — the drop-empty policy -/

/-- Helper: the sanitizer signals a drop exactly when, after
normalization, the source label or the message text is empty (with the
drop-empty toggle in its default enabled state). -/
theorem sanitize_drop_iff (cfg : UIConfig) (msg : Message) :
    sanitizeMessagePayload cfg true msg = SanitizeResult.drop ↔
      ((Message.normalize cfg msg).source = "" ∨
        (Message.normalize cfg msg).message = "") := by
  unfold sanitizeMessagePayload
  split
  next h =>
    simp only [dropEmptyCond, Bool.true_and, Bool.or_eq_true, decide_eq_true_eq] at h
    simp [h]
  next h =>
    simp only [dropEmptyCond, Bool.true_and, Bool.or_eq_true, decide_eq_true_eq] at h
    simp [h]

/-- Helper: the ingest pipeline drops exactly when the drop-empty
toggle is on and the enriched, normalized message has an empty source
or an empty text. -/
theorem process_drop_iff (cfg : UIConfig) (dropEmpty : Bool)
    (tokenize : String → List Token) (parseCmd : Message → Message)
    (userColours : List (String × String)) (url : String) (msg0 : Message) :
    processChatMessage cfg dropEmpty tokenize parseCmd userColours url msg0 = none ↔
      (dropEmpty = true ∧
        ((enrichChatMessage cfg tokenize parseCmd userColours url msg0).source = "" ∨
          (enrichChatMessage cfg tokenize parseCmd userColours url msg0).message = "")) := by
  unfold processChatMessage
  split
  next h =>
    simp only [dropEmptyCond, Bool.and_eq_true, Bool.or_eq_true, decide_eq_true_eq] at h
    simp [h]
  next h =>
    simp only [dropEmptyCond, Bool.and_eq_true, Bool.or_eq_true, decide_eq_true_eq] at h
    simpa using h

/-- C2 counterexample: a payload whose post-normalization emote list is
non-empty but whose text is empty is dropped, and a payload with
non-empty text but an empty source label is also dropped — the drop
decision is not "both text and emote list empty". -/
theorem drop_empty_counterexample :
    sanitizeMessagePayload defaultUIConfig true wEmoteOnlyMsg = SanitizeResult.drop
    ∧ (Message.normalize defaultUIConfig wEmoteOnlyMsg).emotes = some [wEmote]
    ∧ processChatMessage defaultUIConfig true (fun _ => []) id [] "u" wEmoteOnlyMsg = none
    ∧ processChatMessage defaultUIConfig true (fun _ => []) id [] "u" wNoSourceMsg = none
    ∧ (Message.normalize defaultUIConfig wNoSourceMsg).message = "hi" := by
  decide

/-- C2 amended: with the drop-empty toggle enabled (its default), the
pipeline signals a drop exactly when, after normalization, the source
label or the message text is empty; the emote list plays no role in
the decision; a dropped message produces neither a stored row nor a
broadcast payload (`processChatMessage` yields nothing); and the
spec scenario (empty author, empty message, no emotes) is dropped. -/
theorem drop_empty_amended :
    (∀ (cfg : UIConfig) (msg : Message),
      sanitizeMessagePayload cfg true msg = SanitizeResult.drop ↔
        ((Message.normalize cfg msg).source = "" ∨
          (Message.normalize cfg msg).message = ""))
    ∧ (∀ (cfg : UIConfig) (msg : Message) (e1 e2 : Option (List Emote)),
        (sanitizeMessagePayload cfg true { msg with emotes := e1 } = SanitizeResult.drop ↔
          sanitizeMessagePayload cfg true { msg with emotes := e2 } = SanitizeResult.drop))
    ∧ (∀ (cfg : UIConfig) (dropEmpty : Bool) (tokenize : String → List Token)
        (parseCmd : Message → Message) (userColours : List (String × String))
        (url : String) (msg0 : Message),
        processChatMessage cfg dropEmpty tokenize parseCmd userColours url msg0 = none ↔
          (dropEmpty = true ∧
            ((enrichChatMessage cfg tokenize parseCmd userColours url msg0).source = "" ∨
              (enrichChatMessage cfg tokenize parseCmd userColours url msg0).message = "")))
    ∧ processChatMessage defaultUIConfig true (fun _ => []) id [] "u" wEmptyMsg = none := by
  refine ⟨sanitize_drop_iff, ?_, process_drop_iff, by decide⟩
  intro cfg msg e1 e2
  rw [sanitize_drop_iff, sanitize_drop_iff]
  exact Iff.rfl

/-! ### C5 — hub backpressure -/

/-- Helper: with no consumer, folding non-blocking sends over a queue
appends exactly the messages that still fit and drops the rest. -/
theorem trySend_foldl {α : Type} (cap : Nat) :
    ∀ (msgs : List α) (q : List α),
      msgs.foldl (trySend cap) q = q ++ msgs.take (cap - q.length) := by
  intro msgs
  induction msgs with
  | nil => intro q; simp
  | cons m ms ih =>
    intro q
    by_cases hq : q.length < cap
    · rw [List.foldl_cons,
        show trySend cap q m = q ++ [m] from by unfold trySend; rw [if_pos hq],
        ih]
      have h1 : cap - q.length = (cap - (q ++ [m]).length) + 1 := by
        simp only [List.length_append, List.length_singleton]
        omega
      rw [h1, List.take_succ_cons]
      simp
    · rw [List.foldl_cons,
        show trySend cap q m = q from by unfold trySend; rw [if_neg hq],
        ih]
      have h0 : cap - q.length = 0 := by omega
      simp [h0]

/-- Helper: publishing a sequence of payloads treats each subscriber
queue independently. -/
theorem publishAll_map {α : Type} (cap : Nat) :
    ∀ (msgs : List α) (subs : List (List α)),
      publishAll cap subs msgs = subs.map (fun q => msgs.foldl (trySend cap) q) := by
  intro msgs
  induction msgs with
  | nil => intro subs; simp [publishAll]
  | cons m ms ih =>
    intro subs
    calc publishAll cap subs (m :: ms)
        = publishAll cap (broadcastChatMessage cap subs m) ms := rfl
      _ = (broadcastChatMessage cap subs m).map (fun q => ms.foldl (trySend cap) q) :=
          ih _
      _ = subs.map (fun q => (m :: ms).foldl (trySend cap) q) := by
          unfold broadcastChatMessage
          rw [List.map_map]
          rfl

/-- C5: Publish delivers a copy to each subscriber queue with free
capacity and silently drops the payload for each full queue; the
number of registered queues is unchanged; the outcome at one queue
depends only on that queue, so a full or stalled subscriber never
affects delivery to the others; and across a whole published sequence
a queue receives exactly the messages that arrived while it still had
room — messages published after it fills are lost for that subscriber
only. -/
theorem hub_backpressure {α : Type} (cap : Nat) (subs : List (List α)) (msg : α)
    (msgs : List α) (i : Nat) (q : List α) (hq : subs[i]? = some q) :
    (broadcastChatMessage cap subs msg).length = subs.length
    ∧ (q.length < cap → (broadcastChatMessage cap subs msg)[i]? = some (q ++ [msg]))
    ∧ (cap ≤ q.length → (broadcastChatMessage cap subs msg)[i]? = some q)
    ∧ (publishAll cap subs msgs)[i]? = some (q ++ msgs.take (cap - q.length)) := by
  refine ⟨by simp [broadcastChatMessage], ?_, ?_, ?_⟩
  · intro hfree
    unfold broadcastChatMessage
    rw [List.getElem?_map, hq]
    show some (trySend cap q msg) = _
    unfold trySend
    rw [if_pos hfree]
  · intro hfull
    unfold broadcastChatMessage
    rw [List.getElem?_map, hq]
    show some (trySend cap q msg) = _
    unfold trySend
    rw [if_neg (by omega)]
  · rw [publishAll_map, List.getElem?_map, hq]
    show some (msgs.foldl (trySend cap) q) = _
    rw [trySend_foldl]

/-- C5 witness: the backpressure statement instantiated with capacity
2, one nearly-full and one full queue, and three published messages. -/
theorem hub_backpressure_witness :
    (broadcastChatMessage 2 [[10], [20, 30]] 1).length = 2
    ∧ (([10] : List Nat).length < 2 →
        (broadcastChatMessage 2 [[10], [20, 30]] 1)[0]? = some ([10] ++ [1]))
    ∧ (2 ≤ ([10] : List Nat).length →
        (broadcastChatMessage 2 [[10], [20, 30]] 1)[0]? = some [10])
    ∧ (publishAll 2 [[10], [20, 30]] [1, 2, 3])[0]? =
        some ([10] ++ [1, 2, 3].take (2 - ([10] : List Nat).length)) :=
  hub_backpressure 2 [[10], [20, 30]] 1 [1, 2, 3] 0 [10] (by decide)

/-! ### C10 — TailHead -/

/-- C10: TailHead of an empty store is the zero position with no
error; on a non-empty store it returns the timestamp and rowid taken
from one single row that is maximal in `(ts, rowid)` order — both
components from the same row, never an inconsistent pair of
independent maxima. -/
theorem tailHead_spec (table : List MsgRow) :
    (table = [] → TailHead table = ⟨0, 0⟩)
    ∧ (table ≠ [] → ∃ r, r ∈ table ∧ TailHead table = ⟨r.ts, r.rowid⟩ ∧
        ∀ x ∈ table, keyLt (rowKey x) (rowKey r) ∨ rowKey x = rowKey r) := by
  constructor
  · intro h
    subst h
    rfl
  · intro h
    have hperm := List.perm_insertionSort tailGe table
    have hsort := List.sorted_insertionSort tailGe table
    cases hs : table.insertionSort tailGe with
    | nil =>
      rw [hs] at hperm
      exact absurd hperm.symm.eq_nil h
    | cons r t =>
      rw [hs] at hperm hsort
      refine ⟨r, ?_, ?_, ?_⟩
      · exact hperm.mem_iff.mp (List.mem_cons_self r t)
      · unfold TailHead
        rw [hs]
        rfl
      · intro x hx
        have hx2 : x ∈ r :: t := hperm.mem_iff.mpr hx
        rcases List.mem_cons.mp hx2 with hxr | hxt
        · right
          rw [hxr]
        · have := (List.pairwise_cons.mp hsort).1 x hxt
          simpa [tailGe, tailLe] using this

/-- C10 witness: TailHead on a concrete three-row store with a shared
timestamp picks the row that is maximal in compound order. -/
theorem tailHead_spec_witness :
    ∃ r, r ∈ [wr1, wr3, wr2] ∧ TailHead [wr1, wr3, wr2] = ⟨r.ts, r.rowid⟩ ∧
      ∀ x ∈ [wr1, wr3, wr2], keyLt (rowKey x) (rowKey r) ∨ rowKey x = rowKey r :=
  (tailHead_spec [wr1, wr3, wr2]).2 (by decide)

/-! ### C4 — migration idempotence -/

/-- Helper: complete case analysis of one successful migration step. -/
theorem applyOne_cases {σ : Type} (execSql : String → σ → ExecResult σ)
    (st : MigState σ) (f : MigFile) (st2 : MigState σ)
    (h : applyOneMigration execSql st f = Except.ok st2) :
    (st2 = st ∧ (migEligible f = false ∨ f.name ∈ st.migrations))
    ∨ (migEligible f = true ∧ f.name ∉ st.migrations
        ∧ st2.migrations = st.migrations ++ [f.name]
        ∧ ((strTrim f.content = "" ∧ st2.execLog = st.execLog)
            ∨ (strTrim f.content ≠ "" ∧ st2.execLog = st.execLog ++ [f.name]))) := by
  unfold applyOneMigration at h
  split at h
  next he =>
    left
    rw [Except.ok.injEq] at h
    exact ⟨h.symm, Or.inl (by simpa using he)⟩
  next he =>
    split at h
    next hm =>
      left
      rw [Except.ok.injEq] at h
      exact ⟨h.symm, Or.inr hm⟩
    next hm =>
      split at h
      next hsql =>
        right
        rw [Except.ok.injEq] at h
        subst h
        exact ⟨by simpa using he, hm, rfl, Or.inl ⟨hsql, rfl⟩⟩
      next hsql =>
        right
        split at h
        · rw [Except.ok.injEq] at h
          subst h
          exact ⟨by simpa using he, hm, rfl, Or.inr ⟨hsql, rfl⟩⟩
        · rw [Except.ok.injEq] at h
          subst h
          exact ⟨by simpa using he, hm, rfl, Or.inr ⟨hsql, rfl⟩⟩
        · exact absurd h (by simp)

/-- Helper: a successful run only ever appends to the recorded
migration names. -/
theorem run_migrations_mono {σ : Type} (execSql : String → σ → ExecResult σ) :
    ∀ (files : List MigFile) (st st1 : MigState σ),
      applyMigrationsIdempotent execSql files st = Except.ok st1 →
      ∀ n, n ∈ st.migrations → n ∈ st1.migrations := by
  intro files
  induction files with
  | nil =>
    intro st st1 h n hn
    unfold applyMigrationsIdempotent at h
    rw [Except.ok.injEq] at h
    exact h ▸ hn
  | cons f fs ih =>
    intro st st1 h n hn
    unfold applyMigrationsIdempotent at h
    split at h
    next st2 hstep =>
      rcases applyOne_cases execSql st f st2 hstep with ⟨heq, _⟩ | ⟨_, _, hmig, _⟩
      · exact ih st2 st1 h n (heq ▸ hn)
      · exact ih st2 st1 h n (by rw [hmig]; exact List.mem_append_left _ hn)
    next e heq => exact absurd h (by simp)

/-- Helper: a successful run only ever appends to the execution log. -/
theorem run_execLog_mono {σ : Type} (execSql : String → σ → ExecResult σ) :
    ∀ (files : List MigFile) (st st1 : MigState σ),
      applyMigrationsIdempotent execSql files st = Except.ok st1 →
      ∀ n, n ∈ st.execLog → n ∈ st1.execLog := by
  intro files
  induction files with
  | nil =>
    intro st st1 h n hn
    unfold applyMigrationsIdempotent at h
    rw [Except.ok.injEq] at h
    exact h ▸ hn
  | cons f fs ih =>
    intro st st1 h n hn
    unfold applyMigrationsIdempotent at h
    split at h
    next st2 hstep =>
      rcases applyOne_cases execSql st f st2 hstep with ⟨heq, _⟩ | ⟨_, _, _, hlog⟩
      · exact ih st2 st1 h n (heq ▸ hn)
      · rcases hlog with ⟨_, hl⟩ | ⟨_, hl⟩
        · exact ih st2 st1 h n (hl ▸ hn)
        · exact ih st2 st1 h n (by rw [hl]; exact List.mem_append_left _ hn)
    next e heq => exact absurd h (by simp)

/-- Helper: after a successful run, every eligible migration file is
recorded in the migrations table. -/
theorem run_recorded {σ : Type} (execSql : String → σ → ExecResult σ) :
    ∀ (files : List MigFile) (st st1 : MigState σ),
      applyMigrationsIdempotent execSql files st = Except.ok st1 →
      ∀ f ∈ files, migEligible f = true → f.name ∈ st1.migrations := by
  intro files
  induction files with
  | nil => intro st st1 _ f hf; exact absurd hf (List.not_mem_nil f)
  | cons f0 fs ih =>
    intro st st1 h f hf he
    unfold applyMigrationsIdempotent at h
    split at h
    next st2 hstep =>
      rcases List.mem_cons.mp hf with hf0 | hfs
      · subst hf0
        rcases applyOne_cases execSql st f st2 hstep with ⟨heq, hskip⟩ | ⟨_, _, hmig, _⟩
        · rcases hskip with hine | hmem
          · exact absurd he (by rw [hine]; simp)
          · exact run_migrations_mono execSql fs st2 st1 h f.name (heq ▸ hmem)
        · exact run_migrations_mono execSql fs st2 st1 h f.name
            (by rw [hmig]; exact List.mem_append_right _ (List.mem_singleton_self _))
      · exact ih st2 st1 h f hfs he
    next e heq => exact absurd h (by simp)

/-- Helper: when every eligible file is already recorded, a run is a
no-op that succeeds with the same state. -/
theorem run_skip {σ : Type} (execSql : String → σ → ExecResult σ) :
    ∀ (files : List MigFile) (st : MigState σ),
      (∀ f ∈ files, migEligible f = true → f.name ∈ st.migrations) →
      applyMigrationsIdempotent execSql files st = Except.ok st := by
  intro files
  induction files with
  | nil => intro st _; rfl
  | cons f0 fs ih =>
    intro st hall
    have hstep : applyOneMigration execSql st f0 = Except.ok st := by
      unfold applyOneMigration
      by_cases he : migEligible f0 = true
      · rw [if_neg (by simp [he]), if_pos (hall f0 (List.mem_cons_self f0 fs) he)]
      · rw [if_pos (by simpa using he)]
    unfold applyMigrationsIdempotent
    rw [hstep]
    exact ih st (fun f hf => hall f (List.mem_cons_of_mem f0 hf))

/-- Helper: a successful run preserves the invariant that the
execution log is duplicate-free and contained in the recorded
migration names. -/
theorem run_invariant {σ : Type} (execSql : String → σ → ExecResult σ) :
    ∀ (files : List MigFile) (st st1 : MigState σ),
      applyMigrationsIdempotent execSql files st = Except.ok st1 →
      (∀ n ∈ st.execLog, n ∈ st.migrations) → st.execLog.Nodup →
      (∀ n ∈ st1.execLog, n ∈ st1.migrations) ∧ st1.execLog.Nodup := by
  intro files
  induction files with
  | nil =>
    intro st st1 h hsub hnd
    unfold applyMigrationsIdempotent at h
    rw [Except.ok.injEq] at h
    exact h ▸ ⟨hsub, hnd⟩
  | cons f0 fs ih =>
    intro st st1 h hsub hnd
    unfold applyMigrationsIdempotent at h
    split at h
    next st2 hstep =>
      rcases applyOne_cases execSql st f0 st2 hstep with ⟨heq, _⟩ | ⟨_, hnew, hmig, hlog⟩
      · exact ih st2 st1 h (heq ▸ hsub) (heq ▸ hnd)
      · rcases hlog with ⟨_, hl⟩ | ⟨_, hl⟩
        · refine ih st2 st1 h ?_ (hl ▸ hnd)
          intro n hn
          rw [hmig]
          exact List.mem_append_left _ (hsub n (hl ▸ hn))
        · refine ih st2 st1 h ?_ ?_
          · intro n hn
            rw [hl] at hn
            rw [hmig]
            rcases List.mem_append.mp hn with hn2 | hn2
            · exact List.mem_append_left _ (hsub n hn2)
            · exact List.mem_append_right _ hn2
          · rw [hl]
            refine List.Nodup.append hnd (List.nodup_singleton _) ?_
            intro n hn1 hn2
            rw [List.mem_singleton] at hn2
            exact hnew (hn2 ▸ hsub n hn1)
    next e heq => exact absurd h (by simp)

/-- Helper: a fresh eligible migration with non-blank SQL is actually
submitted for execution exactly during the run that first sees it. -/
theorem run_exec_once {σ : Type} (execSql : String → σ → ExecResult σ) :
    ∀ (files : List MigFile) (st st1 : MigState σ),
      applyMigrationsIdempotent execSql files st = Except.ok st1 →
      (files.map MigFile.name).Nodup →
      ∀ f ∈ files, migEligible f = true → strTrim f.content ≠ "" →
        f.name ∉ st.migrations → f.name ∈ st1.execLog := by
  intro files
  induction files with
  | nil => intro st st1 _ _ f hf; exact absurd hf (List.not_mem_nil f)
  | cons f0 fs ih =>
    intro st st1 h hnames f hf he hsql hnotin
    unfold applyMigrationsIdempotent at h
    split at h
    next st2 hstep =>
      rcases List.mem_cons.mp hf with hf0 | hfs
      · subst hf0
        rcases applyOne_cases execSql st f st2 hstep with ⟨_, hskip⟩ | ⟨_, _, _, hlog⟩
        · rcases hskip with hine | hmem
          · exact absurd he (by rw [hine]; simp)
          · exact absurd hmem hnotin
        · rcases hlog with ⟨hblank, _⟩ | ⟨_, hl⟩
          · exact absurd hblank hsql
          · exact run_execLog_mono execSql fs st2 st1 h f.name
              (by rw [hl]; exact List.mem_append_right _ (List.mem_singleton_self _))
      · have hne : f.name ≠ f0.name := by
          intro hcontra
          have h0 : f0.name ∉ fs.map MigFile.name := (List.nodup_cons.mp (by simpa using hnames)).1
          exact h0 (hcontra ▸ List.mem_map_of_mem MigFile.name hfs)
        have hnotin2 : f.name ∉ st2.migrations := by
          rcases applyOne_cases execSql st f0 st2 hstep with ⟨heq, _⟩ | ⟨_, _, hmig, _⟩
          · rw [heq]
            exact hnotin
          · rw [hmig]
            intro hcontra
            rcases List.mem_append.mp hcontra with hc | hc
            · exact hnotin hc
            · exact hne (List.mem_singleton.mp hc)
        exact ih st2 st1 h (List.nodup_cons.mp (by simpa using hnames)).2 f hfs he hsql hnotin2
    next e heq => exact absurd h (by simp)

/-- C4: starting from a fresh store, a successful Init applies each
eligible migration with non-blank SQL exactly once (it appears once in
the execution log), records every eligible migration in the migrations
table, and a second Init against the resulting state is a no-op that
succeeds with the state unchanged — nothing is re-executed, nothing
errors, and all previously written rows (the abstract database
component) are preserved. -/
theorem migrations_idempotent {σ : Type} (execSql : String → σ → ExecResult σ)
    (files : List MigFile) (st0 st1 : MigState σ)
    (h1 : applyMigrationsIdempotent execSql files st0 = Except.ok st1)
    (hmig : st0.migrations = []) (hlog : st0.execLog = [])
    (hnames : (files.map MigFile.name).Nodup) :
    (∀ f ∈ files, migEligible f = true → f.name ∈ st1.migrations)
    ∧ applyMigrationsIdempotent execSql files st1 = Except.ok st1
    ∧ st1.execLog.Nodup
    ∧ (∀ f ∈ files, migEligible f = true → strTrim f.content ≠ "" →
        st1.execLog.count f.name = 1) := by
  have hrec := run_recorded execSql files st0 st1 h1
  have hinv := run_invariant execSql files st0 st1 h1
    (by rw [hlog]; intro n hn; exact absurd hn (List.not_mem_nil n))
    (by rw [hlog]; exact List.nodup_nil)
  refine ⟨hrec, run_skip execSql files st1 hrec, hinv.2, ?_⟩
  intro f hf he hsql
  have hmem := run_exec_once execSql files st0 st1 h1 hnames f hf he hsql
    (by rw [hmig]; exact List.not_mem_nil _)
  exact List.count_eq_one_of_mem hinv.2 hmem

/-- C4 witness: running the migration fold twice on a concrete fresh
store with one real migration and one blank migration; the second run
returns the same state unchanged. -/
theorem migrations_idempotent_witness :
    applyMigrationsIdempotent wExec [wMig1, wMig2]
      ⟨["0001_init.sql", "0002_idx.sql"], ["0001_init.sql"], 1⟩ =
      Except.ok ⟨["0001_init.sql", "0002_idx.sql"], ["0001_init.sql"], 1⟩ :=
  (migrations_idempotent wExec [wMig1, wMig2] ⟨[], [], 0⟩
    ⟨["0001_init.sql", "0002_idx.sql"], ["0001_init.sql"], 1⟩
    (by decide) rfl rfl (by decide)).2.1

/-! ### C1 — TailNext cursor discipline -/

/-- Helper: the compound WHERE clause of `TailNext` holds for a row
exactly when the row key is strictly greater than the cursor key in
lexicographic order. -/
theorem tailAfterB_iff (r : MsgRow) (p : TailPosition) :
    tailAfterB r p = true ↔ keyLt (posKey p) (rowKey r) := by
  unfold tailAfterB keyLt posKey rowKey
  simp only [Bool.or_eq_true, Bool.and_eq_true, decide_eq_true_eq, gt_iff_lt]
  omega

/-- Helper: the strict key order is transitive. -/
theorem keyLt_trans {a b c : Int × Int} (h1 : keyLt a b) (h2 : keyLt b c) : keyLt a c := by
  unfold keyLt at *
  omega

/-- Helper: the cursor update loop of `TailNext` (`last = after`,
overwritten once per scanned row) computes the key of the last row. -/
theorem foldl_lastPos :
    ∀ (l : List MsgRow) (c : TailPosition) (r : MsgRow),
      l.getLast? = some r →
      l.foldl (fun _ x => TailPosition.mk x.ts x.rowid) c = TailPosition.mk r.ts r.rowid := by
  intro l
  induction l with
  | nil => intro c r h; exact absurd h (by simp)
  | cons a t ih =>
    intro c r h
    cases t with
    | nil =>
      simp only [List.getLast?_singleton, Option.some.injEq] at h
      subst h
      rfl
    | cons b t2 =>
      rw [List.getLast?_cons_cons] at h
      exact ih ⟨a.ts, a.rowid⟩ r h

/-- Helper: when the compound keys of a list are pairwise distinct, the
`ts ASC, rowid ASC` sort is strictly increasing. -/
theorem sortedStrict (l : List MsgRow) (hnd : (l.map rowKey).Nodup) :
    (l.insertionSort tailLe).Pairwise tailLt := by
  have hs : List.Pairwise tailLe (l.insertionSort tailLe) :=
    List.sorted_insertionSort tailLe l
  have hp : ((l.insertionSort tailLe).map rowKey).Nodup :=
    ((List.perm_insertionSort tailLe l).map rowKey).symm.nodup hnd
  have hne : (l.insertionSort tailLe).Pairwise (fun a b => rowKey a ≠ rowKey b) :=
    List.pairwise_map.mp hp
  refine (hs.and hne).imp ?_
  intro a b hab
  rcases hab.1 with hlt | heq
  · exact hlt
  · exact absurd heq hab.2

/-- Helper: in a strictly sorted list, the rows whose key is strictly
greater than the key of the last element of the length-`n` prefix are
exactly the rows after that prefix. -/
theorem filter_after_last_take (s : List MsgRow) (hps : s.Pairwise tailLt) (n : Nat)
    (e : MsgRow) (he : (s.take n).getLast? = some e) :
    s.filter (fun r => tailAfterB r (TailPosition.mk e.ts e.rowid)) = s.drop n := by
  have htail : s.take n ≠ [] := by
    intro hcontra
    rw [hcontra] at he
    exact absurd he (by simp)
  have hE : e = (s.take n).getLast htail := by
    have := List.getLast?_eq_getLast (s.take n) htail
    rw [he] at this
    exact (Option.some.injEq _ _).mp this
  have hpairs : List.Pairwise tailLt (s.take n ++ s.drop n) := by
    rw [List.take_append_drop]
    exact hps
  rcases List.pairwise_append.mp hpairs with ⟨hp1, _, hcross⟩
  have hpos : posKey (TailPosition.mk e.ts e.rowid) = rowKey e := rfl
  have hdropfull : (s.drop n).filter
      (fun r => tailAfterB r (TailPosition.mk e.ts e.rowid)) = s.drop n := by
    rw [List.filter_eq_self]
    intro b hb
    rw [tailAfterB_iff, hpos]
    exact hcross e (hE ▸ List.getLast_mem htail) b hb
  have htakenil : (s.take n).filter
      (fun r => tailAfterB r (TailPosition.mk e.ts e.rowid)) = [] := by
    rw [List.filter_eq_nil_iff]
    intro a ha
    rw [tailAfterB_iff, hpos]
    have hsplit : (s.take n).dropLast ++ [e] = s.take n := by
      rw [hE]
      exact List.dropLast_append_getLast htail
    have hp1b : List.Pairwise tailLt ((s.take n).dropLast ++ [e]) := hsplit.symm ▸ hp1
    rcases List.mem_append.mp (hsplit.symm ▸ ha) with hd | hsing
    · have hlt : keyLt (rowKey a) (rowKey e) :=
        (List.pairwise_append.mp hp1b).2.2 a hd e (List.mem_singleton_self e)
      unfold keyLt at hlt ⊢
      omega
    · rw [List.mem_singleton.mp hsing]
      unfold keyLt
      omega
  calc s.filter (fun r => tailAfterB r (TailPosition.mk e.ts e.rowid))
      = (s.take n ++ s.drop n).filter
          (fun r => tailAfterB r (TailPosition.mk e.ts e.rowid)) := by
        rw [List.take_append_drop]
    _ = (s.take n).filter (fun r => tailAfterB r (TailPosition.mk e.ts e.rowid))
          ++ (s.drop n).filter (fun r => tailAfterB r (TailPosition.mk e.ts e.rowid)) :=
        List.filter_append _ _
    _ = s.drop n := by rw [htakenil, hdropfull, List.nil_append]

/-- Helper: the effective limit is always at least 1, for any
requested limit. -/
theorem effectiveTailLimit_pos (limit : Int) : 1 ≤ effectiveTailLimit limit := by
  unfold effectiveTailLimit
  split_ifs with h <;> omega

/-- Helper: taking a positive number of elements of a non-empty list
yields a non-empty list. -/
theorem take_ne_nil {α : Type} {l : List α} {k : Nat} (hl : l ≠ []) (hk : 1 ≤ k) :
    l.take k ≠ [] := by
  cases l with
  | nil => exact absurd rfl hl
  | cons a t =>
    cases k with
    | zero => omega
    | succ m => simp

/-- Helper: with pairwise-distinct keys, iterating `TailNext` with the
returned cursor until it yields no rows returns exactly the rows
strictly after the starting cursor, in ascending compound-key order. -/
theorem tailRun_eq (table : List MsgRow) (limit : Int)
    (hnd : (table.map rowKey).Nodup) :
    ∀ (fuel : Nat) (c : TailPosition),
      ((table.filter (fun r => tailAfterB r c)).insertionSort tailLe).length ≤ fuel →
      tailRun table limit fuel c =
        (table.filter (fun r => tailAfterB r c)).insertionSort tailLe := by
  intro fuel
  induction fuel with
  | zero =>
    intro c hlen
    have hnil : (table.filter (fun r => tailAfterB r c)).insertionSort tailLe = [] :=
      List.length_eq_zero.mp (Nat.le_zero.mp hlen)
    rw [hnil]
    rfl
  | succ fuel ih =>
    intro c hlen
    by_cases hse : (table.filter (fun r => tailAfterB r c)).insertionSort tailLe = []
    · have hrows : (TailNext table c limit).1 = [] := by
        show tailRows table c limit = []
        unfold tailRows
        rw [hse]
        exact List.take_nil
      show (if (TailNext table c limit).1.isEmpty then []
        else (TailNext table c limit).1 ++
          tailRun table limit fuel (TailNext table c limit).2) = _
      rw [hrows, hse]
      rfl
    · set k := effectiveTailLimit limit with hk_def
      set s := (table.filter (fun r => tailAfterB r c)).insertionSort tailLe with hs_def
      have hk1 : 1 ≤ k := effectiveTailLimit_pos limit
      have hrows : (TailNext table c limit).1 = s.take k := rfl
      have htne : s.take k ≠ [] := take_ne_nil hse hk1
      have he : (s.take k).getLast? = some ((s.take k).getLast htne) :=
        List.getLast?_eq_getLast _ htne
      have hc2 : (TailNext table c limit).2 =
          TailPosition.mk ((s.take k).getLast htne).ts ((s.take k).getLast htne).rowid :=
        foldl_lastPos (s.take k) c _ he
      have hndf : ((table.filter (fun r => tailAfterB r c)).map rowKey).Nodup :=
        List.Nodup.sublist (List.Sublist.map rowKey (List.filter_sublist table)) hnd
      have hps : s.Pairwise tailLt := sortedStrict _ hndf
      have hfs : s.filter (fun r => tailAfterB r
          (TailPosition.mk ((s.take k).getLast htne).ts ((s.take k).getLast htne).rowid)) =
          s.drop k :=
        filter_after_last_take s hps k _ he
      have hec : keyLt (posKey c) (rowKey ((s.take k).getLast htne)) := by
        have hmem1 : (s.take k).getLast htne ∈ s.take k := List.getLast_mem htne
        have hmem2 : (s.take k).getLast htne ∈ s := List.mem_of_mem_take hmem1
        have hmem3 : (s.take k).getLast htne ∈
            table.filter (fun r => tailAfterB r c) :=
          (List.perm_insertionSort tailLe _).mem_iff.mp hmem2
        exact (tailAfterB_iff _ _).mp (List.mem_filter.mp hmem3).2
      have himp : ∀ r : MsgRow,
          tailAfterB r (TailPosition.mk ((s.take k).getLast htne).ts
            ((s.take k).getLast htne).rowid) = true →
          tailAfterB r c = true := by
        intro r hr
        rw [tailAfterB_iff] at hr ⊢
        exact keyLt_trans hec hr
      have hff : table.filter (fun r => tailAfterB r
          (TailPosition.mk ((s.take k).getLast htne).ts ((s.take k).getLast htne).rowid)) =
          (table.filter (fun r => tailAfterB r c)).filter (fun r => tailAfterB r
            (TailPosition.mk ((s.take k).getLast htne).ts ((s.take k).getLast htne).rowid)) := by
        rw [List.filter_filter]
        refine List.filter_congr ?_
        intro a _
        cases hb : tailAfterB a (TailPosition.mk ((s.take k).getLast htne).ts
            ((s.take k).getLast htne).rowid) with
        | false => rfl
        | true =>
          rw [himp a hb]
          rfl
      have hperm2 : (table.filter (fun r => tailAfterB r
          (TailPosition.mk ((s.take k).getLast htne).ts
            ((s.take k).getLast htne).rowid))).Perm (s.drop k) := by
        rw [hff, ← hfs]
        exact List.Perm.filter _ (List.perm_insertionSort tailLe _).symm
      have hndf2 : ((table.filter (fun r => tailAfterB r
          (TailPosition.mk ((s.take k).getLast htne).ts
            ((s.take k).getLast htne).rowid))).map rowKey).Nodup :=
        List.Nodup.sublist (List.Sublist.map rowKey (List.filter_sublist table)) hnd
      have hsortnew : (table.filter (fun r => tailAfterB r
          (TailPosition.mk ((s.take k).getLast htne).ts
            ((s.take k).getLast htne).rowid))).insertionSort tailLe = s.drop k := by
        refine List.eq_of_perm_of_sorted (r := tailLt)
          ((List.perm_insertionSort tailLe _).trans hperm2) ?_ ?_
        · exact sortedStrict _ hndf2
        · exact hps.sublist (List.drop_sublist k s)
      have hlen2 : ((table.filter (fun r => tailAfterB r
          (TailPosition.mk ((s.take k).getLast htne).ts
            ((s.take k).getLast htne).rowid))).insertionSort tailLe).length ≤ fuel := by
        rw [hsortnew, List.length_drop]
        omega
      have hactive : (TailNext table c limit).1.isEmpty = false := by
        rw [hrows, Bool.eq_false_iff]
        intro hcontra
        exact htne (List.isEmpty_iff.mp hcontra)
      show (if (TailNext table c limit).1.isEmpty then []
        else (TailNext table c limit).1 ++
          tailRun table limit fuel (TailNext table c limit).2) = _
      rw [hactive, hrows, hc2, ih _ hlen2, hsortnew]
      simp only [Bool.false_eq_true, if_false]
      exact List.take_append_drop k s

/-- C1: every row returned by `TailNext(cursor, limit)` has compound
`(ts, rowid)` key strictly greater than the cursor; the returned rows
are in strictly ascending `(ts, rowid)` order; the new cursor is the
cursor unchanged when no row is returned and the key of the last
returned row otherwise; and, when the store's compound keys are
pairwise distinct and every row lies after the starting cursor,
repeatedly calling `TailNext` with the previously returned cursor
returns every inserted row exactly once (a permutation of the table)
in ascending key order. -/
theorem tailNext_cursor_iteration (table : List MsgRow) (limit : Int) (fuel : Nat)
    (c0 : TailPosition)
    (hnd : (table.map rowKey).Nodup)
    (h0 : ∀ r ∈ table, keyLt (posKey c0) (rowKey r))
    (hfuel : table.length ≤ fuel) :
    (∀ (c : TailPosition), ∀ r ∈ (TailNext table c limit).1, keyLt (posKey c) (rowKey r))
    ∧ (∀ c : TailPosition, (TailNext table c limit).1.Pairwise tailLt)
    ∧ (∀ c : TailPosition, (TailNext table c limit).1 = [] → (TailNext table c limit).2 = c)
    ∧ (∀ (c : TailPosition) (r : MsgRow), (TailNext table c limit).1.getLast? = some r →
        (TailNext table c limit).2 = TailPosition.mk r.ts r.rowid)
    ∧ (tailRun table limit fuel c0).Perm table
    ∧ (tailRun table limit fuel c0).Pairwise tailLt := by
  have hfilter0 : table.filter (fun r => tailAfterB r c0) = table :=
    List.filter_eq_self.mpr (fun r hr => (tailAfterB_iff r c0).mpr (h0 r hr))
  have hrun : tailRun table limit fuel c0 = table.insertionSort tailLe := by
    have hlen0 : ((table.filter (fun r => tailAfterB r c0)).insertionSort tailLe).length ≤
        fuel := by
      rw [hfilter0, (List.perm_insertionSort tailLe table).length_eq]
      exact hfuel
    rw [tailRun_eq table limit hnd fuel c0 hlen0, hfilter0]
  refine ⟨?_, ?_, ?_, ?_, ?_, ?_⟩
  · intro c r hr
    have hr2 : r ∈ (table.filter (fun r => tailAfterB r c)).insertionSort tailLe :=
      List.mem_of_mem_take hr
    have hr3 : r ∈ table.filter (fun r => tailAfterB r c) :=
      (List.perm_insertionSort tailLe _).mem_iff.mp hr2
    exact (tailAfterB_iff r c).mp (List.mem_filter.mp hr3).2
  · intro c
    have hndf : ((table.filter (fun r => tailAfterB r c)).map rowKey).Nodup :=
      List.Nodup.sublist (List.Sublist.map rowKey (List.filter_sublist table)) hnd
    exact List.Pairwise.sublist (List.take_sublist _ _) (sortedStrict _ hndf)
  · intro c h
    show (TailNext table c limit).1.foldl (fun _ x => TailPosition.mk x.ts x.rowid) c = c
    rw [h]
    rfl
  · intro c r h
    exact foldl_lastPos _ c r h
  · exact hrun ▸ List.perm_insertionSort tailLe table
  · exact hrun ▸ sortedStrict table hnd

/-- C1 witness: iterating `TailNext` with batch limit 1 over a
three-row store with a shared timestamp recovers all rows exactly
once, in compound-key order. -/
theorem tailNext_cursor_iteration_witness :
    (tailRun [wr1, wr2, wr3] 1 3 ⟨0, 0⟩).Perm [wr1, wr2, wr3]
    ∧ (tailRun [wr1, wr2, wr3] 1 3 ⟨0, 0⟩).Pairwise tailLt :=
  ⟨(tailNext_cursor_iteration [wr1, wr2, wr3] 1 3 ⟨0, 0⟩ (by decide)
      (by decide) (by decide)).2.2.2.2.1,
    (tailNext_cursor_iteration [wr1, wr2, wr3] 1 3 ⟨0, 0⟩ (by decide)
      (by decide) (by decide)).2.2.2.2.2⟩

end EloraChat
